import Mathlib

/-!
Verification of the open-addressing hash table in
`Assignment_2A/hashy_step_table.py` (class `HashyStepTable`).

The embedding is a direct shallow translation of the Python source:

* A slot of the backing `ArrayR` is `None`, the `DELETED` sentinel, or a
  `(key, value)` pair; we model it as the three-state `Slot`.
* Keys are strings iterated character by character; we model a key as the
  list of its character codes (`ord`), which is all the hash functions use.
* `count` is modelled as `Int` because the Python counter can drift below
  zero (deletion decrements unconditionally, insertion over a tombstone
  does not increment).
* Python exceptions are modelled with `Except`; since the Python object
  keeps its (possibly partially mutated) state when an exception escapes,
  mutating operations return `Except (Err × Table V) (Table V)` where the
  error carries the state at raise time.
* `__setitem__` and `_rehash` are mutually recursive in the source
  (rehash reinserts via `self[key] = value`); we drive the recursion with
  an explicit fuel so that every definition is structural and executable.
  Exhausted fuel is the distinguished error `Err.noFuel`, never confused
  with the source's `KeyError` / `FullError` / `TypeError` /
  `ZeroDivisionError`.
-/

namespace HashyStep

/-- Character-code sequence of a string key (what `ord(char)` yields). -/
abbrev Key := List Nat

/-- One slot of the backing array: `None`, the `DELETED` sentinel, or a
`(key, value)` pair. -/
inductive Slot (V : Type) where
  | empty
  | deleted
  | occ (key : Key) (val : V)
deriving Repr

/-- State of a `HashyStepTable` instance: the (instance-level) size
schedule `TABLE_SIZES`, the current `size_index`, the backing array, and
the `count` field. -/
structure Table (V : Type) where
  sizes : List Nat
  size_index : Nat
  array : List (Slot V)
  count : Int
deriving Repr

/-- Error conditions of the Python code. `keyNotFound` is `KeyError`,
`full` is `FullError`, `typeErr` is the `TypeError` raised when code
subscripts or unpacks the `DELETED` sentinel, `zeroDiv` is
`ZeroDivisionError` from `% 0`, and `noFuel` is the artificial
out-of-fuel marker of the embedding. -/
inductive Err where
  | keyNotFound
  | full
  | typeErr
  | zeroDiv
  | noFuel
deriving Repr, DecidableEq

variable {V : Type}

/-- The default class-level `TABLE_SIZES` schedule. -/
def TABLE_SIZES : List Nat :=
  [5, 13, 29, 53, 97, 193, 389, 769, 1543, 3079, 6151, 12289, 24593,
   49157, 98317, 196613, 393241, 786433, 1572869]

/-- Reading `self.array[p]`; out-of-range reads never occur in the source
(all probe positions are reduced modulo the length), so the default is
immaterial. -/
def slotA (arr : List (Slot V)) (p : Nat) : Slot V :=
  arr.getD p .empty

/-- Python `self.array[position] is None`. -/
def Slot.isNone : Slot V → Bool
  | .empty => true
  | _ => false

/-- Python `self.array[position] == self.DELETED` (sentinel identity). -/
def Slot.isDel : Slot V → Bool
  | .deleted => true
  | _ => false

/-- Loop body accumulator of `HashyStepTable.hash`: per character,
`value = (ord(char) + a * value) % self.table_size` and then
`a = a * self.HASH_BASE % (self.table_size - 1)`; a modulus of zero is a
`ZeroDivisionError`, i.e. `none`. -/
def hash_aux (size : Nat) : List Nat → Nat → Nat → Option Nat
  | [], value, _ => some value
  | c :: cs, value, a =>
    if size = 0 then none
    else if size - 1 = 0 then none
    else hash_aux size cs ((c + a * value) % size) (a * 31 % (size - 1))

/-- `HashyStepTable.hash`: polynomial rolling hash, `a` starting at
`31415`, `HASH_BASE = 31`. -/
def hash (size : Nat) (key : Key) : Option Nat :=
  hash_aux size key 0 31415

/-- Loop body of `HashyStepTable.hash2`:
`value = (ord(char) + value * 37) % self.table_size`. -/
def hash2_aux (size : Nat) : List Nat → Nat → Option Nat
  | [], value => some (max 1 value)
  | c :: cs, value =>
    if size = 0 then none
    else hash2_aux size cs ((c + value * 37) % size)

/-- `HashyStepTable.hash2`: step-size hash, clamped via
`max(1, value)`. -/
def hash2 (size : Nat) (key : Key) : Option Nat :=
  hash2_aux size key 0

/-- First-`some` choice, mirroring
`first_deleted if first_deleted is not None else _`. -/
def fdOr (a b : Option Nat) : Option Nat :=
  match a with
  | some d => some d
  | none => b

/-- The probe loop of `HashyStepTable._hashy_probe`: `n` remaining
iterations of `for _ in range(self.table_size)`, current `position`,
and `first_deleted`. -/
def probe_aux (arr : List (Slot V)) (size st : Nat) (key : Key) (ins : Bool) :
    Nat → Nat → Option Nat → Except Err Nat
  | 0, _, fd =>
    if ins then
      match fd with
      | some d => .ok d
      | none => .error .full
    else .error .keyNotFound
  | n + 1, pos, fd =>
    match slotA arr pos with
    | .empty =>
      if ins then .ok (fd.getD pos) else .error .keyNotFound
    | .deleted =>
      probe_aux arr size st key ins n ((pos + st) % size) (fdOr fd (some pos))
    | .occ k _ =>
      if k = key then .ok pos
      else probe_aux arr size st key ins n ((pos + st) % size) fd

/-- `HashyStepTable._hashy_probe` on a backing array: compute
`hash(key)` and `hash2(key)` (propagating `ZeroDivisionError`), then
probe for at most `len(array)` iterations. -/
def probeArr (arr : List (Slot V)) (key : Key) (ins : Bool) : Except Err Nat :=
  match hash arr.length key, hash2 arr.length key with
  | some position, some step_size =>
    probe_aux arr arr.length step_size key ins arr.length position none
  | _, _ => .error .zeroDiv

/-- `HashyStepTable.__getitem__` on a backing array: probe with
`is_insert=False` and return `self.array[position][1]`; subscripting a
`None`/`DELETED` slot would be a `TypeError` (that arm is unreachable,
a non-insert probe only resolves to a matching occupied slot). -/
def getArr (arr : List (Slot V)) (key : Key) : Except Err V :=
  match probeArr arr key false with
  | .error e => .error e
  | .ok p =>
    match slotA arr p with
    | .occ _ v => .ok v
    | _ => .error .typeErr

/-- `self.table_size` (`len(self.array)`). -/
def table_size (t : Table V) : Nat :=
  t.array.length

/-- `HashyStepTable.__getitem__`. -/
def getItem (t : Table V) (key : Key) : Except Err V :=
  getArr t.array key

/-- `HashyStepTable.__contains__`: `get`, converting only `KeyError`
to `False`; any other exception propagates. -/
def containsF (t : Table V) (key : Key) : Except Err Bool :=
  match getItem t key with
  | .ok _ => .ok true
  | .error .keyNotFound => .ok false
  | .error e => .error e

/-- `HashyStepTable.__delitem__`: probe with `is_insert=False`, then
`self.array[position] = self.DELETED; self.count -= 1`. -/
def delItem (t : Table V) (key : Key) : Except (Err × Table V) (Table V) :=
  match probeArr t.array key false with
  | .error e => .error (e, t)
  | .ok p =>
    .ok { t with array := t.array.set p .deleted, count := t.count - 1 }

/-- State after the two mutation lines of `__setitem__`:
`if self.array[position] is None: self.count += 1` and
`self.array[position] = (key, data)`. -/
def writeT (t : Table V) (key : Key) (v : V) (p : Nat) : Table V :=
  { t with
    count := if (slotA t.array p).isNone then t.count + 1 else t.count,
    array := t.array.set p (.occ key v) }

/-- State after `self.size_index += 1` in `_rehash` (present even when
the subsequent bound check raises `FullError`). -/
def bumpT (t : Table V) : Table V :=
  { t with size_index := t.size_index + 1 }

/-- State after `_rehash` has installed the fresh larger array and reset
`count`, before reinsertion. -/
def freshT (t : Table V) : Table V :=
  { t with
    size_index := t.size_index + 1,
    array := List.replicate (t.sizes.getD (t.size_index + 1) 0) .empty,
    count := 0 }

/-- Pending work item of the `__setitem__` / `_rehash` recursion. -/
inductive Job (V : Type) where
  | jset (t : Table V) (key : Key) (v : V)
  | jrehash (t : Table V)
  | jreinsert (t : Table V) (rest : List (Slot V))

/-- Table state carried by a job (used when fuel runs out). -/
def Job.state : Job V → Table V
  | .jset t _ _ => t
  | .jrehash t => t
  | .jreinsert t _ => t

/-- Execution of `__setitem__` (`jset`), `_rehash` (`jrehash`) and the
reinsertion loop of `_rehash` (`jreinsert`), faithful to the source:

* `jset`: probe with `is_insert=True` (exception leaves the table
  untouched); `if self.array[position] is None: self.count += 1`; write
  the `(key, value)` pair; then `if len(self) > self.table_size * 2 / 3:
  self._rehash()`, modelled as the exact comparison
  `3 * count > 2 * table_size`: for capacities below 2^52 (far above
  every scheduled size) the float division rounds by less than the
  distance to the nearest integer, so the two comparisons agree.
* `jrehash`: `self.size_index += 1` happens before the bound check, so
  the `FullError` state has the incremented index; otherwise a fresh
  `None`-array of the next scheduled size, `count = 0`, and the
  reinsertion loop over the old array.
* `jreinsert`: `for item in old_array: if item is not None:
  key, value = item; self[key] = value` — unpacking the `DELETED`
  sentinel raises `TypeError`. -/
def run : Nat → Job V → Except (Err × Table V) (Table V)
  | 0, j => .error (.noFuel, j.state)
  | fuel + 1, j =>
    match j with
    | .jset t key v =>
      match probeArr t.array key true with
      | .error e => .error (e, t)
      | .ok p =>
        if 3 * (writeT t key v p).count >
            2 * ((writeT t key v p).array.length : Int) then
          run fuel (.jrehash (writeT t key v p))
        else .ok (writeT t key v p)
    | .jrehash t =>
      if t.sizes.length ≤ t.size_index + 1 then
        .error (.full, bumpT t)
      else
        run fuel (.jreinsert (freshT t) t.array)
    | .jreinsert t rest =>
      match rest with
      | [] => .ok t
      | .empty :: rest' => run fuel (.jreinsert t rest')
      | .deleted :: _ => .error (.typeErr, t)
      | .occ k v :: rest' =>
        match run fuel (.jset t k v) with
        | .error e => .error e
        | .ok t' => run fuel (.jreinsert t' rest')

/-- `HashyStepTable.__setitem__`, with explicit fuel. -/
def setItem (fuel : Nat) (t : Table V) (key : Key) (v : V) :
    Except (Err × Table V) (Table V) :=
  run fuel (.jset t key v)

/-- `HashyStepTable._rehash`, with explicit fuel. -/
def rehashF (fuel : Nat) (t : Table V) : Except (Err × Table V) (Table V) :=
  run fuel (.jrehash t)

/-- `HashyStepTable.__init__`: instance schedule `sizes`,
`size_index = 0`, a fresh `None`-array of size `sizes[0]`, `count = 0`. -/
def initTable (sizes : List Nat) : Table V :=
  { sizes := sizes, size_index := 0,
    array := List.replicate (sizes.getD 0 0) .empty, count := 0 }

/-- `HashyStepTable.keys`: scan slots in index order; on a non-`None`
slot the source reads `self.array[x][0]`, which on the `DELETED`
sentinel raises `TypeError`. -/
def scanKeys : List (Slot V) → Except Err (List Key)
  | [] => .ok []
  | .empty :: rest => scanKeys rest
  | .deleted :: _ => .error .typeErr
  | .occ k _ :: rest => (scanKeys rest).map (fun l => k :: l)

/-- `HashyStepTable.keys`. -/
def keysF (t : Table V) : Except Err (List Key) :=
  scanKeys t.array

/-- `HashyStepTable.values` (reads `self.array[x][1]`). -/
def scanValues : List (Slot V) → Except Err (List V)
  | [] => .ok []
  | .empty :: rest => scanValues rest
  | .deleted :: _ => .error .typeErr
  | .occ _ v :: rest => (scanValues rest).map (fun l => v :: l)

/-- `HashyStepTable.values`. -/
def valuesF (t : Table V) : Except Err (List V) :=
  scanValues t.array

/-- The live `(key, value)` entries: contents of the occupied slots in
index order. -/
def listEntries : List (Slot V) → List (Key × V)
  | [] => []
  | .occ k v :: rest => (k, v) :: listEntries rest
  | _ :: rest => listEntries rest

/-- Keys of the occupied slots in index order. -/
def listKeys (l : List (Slot V)) : List Key :=
  (listEntries l).map Prod.fst

/-- Number of live (occupied, non-deleted) slots — what the spec says
`length()` should report. -/
def liveCount (t : Table V) : Nat :=
  (listEntries t.array).length

/-- The probe position sequence: start `pos`, then repeatedly
`(pos + st) % size`. -/
def stepSeq (size st pos : Nat) : Nat → Nat
  | 0 => pos
  | j + 1 => (stepSeq size st pos j + st) % size

/-- First tombstone position within the first `j` probe positions
starting at `pos`. -/
def firstTombA (arr : List (Slot V)) (size st : Nat) : Nat → Nat → Option Nat
  | _, 0 => none
  | pos, j + 1 =>
    if (slotA arr pos).isDel then some pos
    else firstTombA arr size st ((pos + st) % size) j

/-- A slot the probe loop for `key` steps over: a tombstone or an
occupied slot with a different key. -/
def skips (key : Key) (s : Slot V) : Prop :=
  s = .deleted ∨ ∃ k' v', s = .occ k' v' ∧ k' ≠ key

/-- An occupied slot holding a key other than `key`. -/
def occOther (key : Key) (s : Slot V) : Prop :=
  ∃ k' v', s = .occ k' v' ∧ k' ≠ key

/-- Some slot holds `k`. -/
def hasKeyA (arr : List (Slot V)) (k : Key) : Prop :=
  ∃ p v, slotA arr p = .occ k v

/-- Occupied keys are pairwise distinct (positionally). -/
def distinctKeys (arr : List (Slot V)) : Prop :=
  ∀ p q k v w, slotA arr p = .occ k v → slotA arr q = .occ k w → p = q

/-- Well-formedness of a backing array: distinct occupied keys, and
every occupied entry is retrievable by lookup. -/
def GoodArr (arr : List (Slot V)) : Prop :=
  distinctKeys arr ∧ ∀ p k v, slotA arr p = .occ k v → getArr arr k = .ok v

/-- Table states reachable through the public interface: a freshly
constructed table (with a nonempty schedule) and states produced by
successful `set` / `delete` / `rehash` calls. -/
inductive Reachable : Table V → Prop where
  | init (sizes : List Nat) : 0 < sizes.length → Reachable (initTable sizes)
  | set {t t' : Table V} {fuel : Nat} {k : Key} {v : V} :
      Reachable t → setItem fuel t k v = .ok t' → Reachable t'
  | del {t t' : Table V} {k : Key} :
      Reachable t → delItem t k = .ok t' → Reachable t'
  | reh {t t' : Table V} {fuel : Nat} :
      Reachable t → rehashF fuel t = .ok t' → Reachable t'

/-- How a successful `run` can change the capacity bookkeeping: the
schedule is untouched, `size_index` never decreases, and either nothing
moved, or `size_index` advanced within the schedule and the capacity is
the scheduled size at the new index. -/
def Mono (s t' : Table V) : Prop :=
  t'.sizes = s.sizes ∧ s.size_index ≤ t'.size_index ∧
    ((t'.size_index = s.size_index ∧ t'.array.length = s.array.length) ∨
     (s.size_index < t'.size_index ∧ t'.size_index < s.sizes.length ∧
      t'.array.length = s.sizes.getD t'.size_index 0))

/-- What a successful `__setitem__` guarantees on a well-formed table:
well-formedness is preserved, the written key reads back the written
value, every other key's lookup is unchanged, and the key set gains
exactly `key`. -/
def SetConc (t : Table V) (key : Key) (v : V) (t' : Table V) : Prop :=
  GoodArr t'.array ∧ getArr t'.array key = .ok v ∧
    (∀ k0 v0, k0 ≠ key → getArr t.array k0 = .ok v0 →
      getArr t'.array k0 = .ok v0) ∧
    (∀ k0, k0 ≠ key → (hasKeyA t'.array k0 ↔ hasKeyA t.array k0)) ∧
    hasKeyA t'.array key

/-- What a successful `_rehash` guarantees on a well-formed table:
well-formedness is preserved, every occupied entry of the old array is
retrievable afterwards, and the key set is unchanged. -/
def RehConc (t t' : Table V) : Prop :=
  GoodArr t'.array ∧
    (∀ p k w, slotA t.array p = .occ k w → getArr t'.array k = .ok w) ∧
    (∀ k0, hasKeyA t'.array k0 ↔ hasKeyA t.array k0)

/-- What the reinsertion loop of `_rehash` guarantees. -/
def ReinsConc (t : Table V) (rest : List (Slot V)) (t' : Table V) : Prop :=
  GoodArr t'.array ∧
    (∀ k w, (k, w) ∈ listEntries rest → getArr t'.array k = .ok w) ∧
    (∀ k0 v0, getArr t.array k0 = .ok v0 → k0 ∉ listKeys rest →
      getArr t'.array k0 = .ok v0) ∧
    (∀ k0, hasKeyA t'.array k0 ↔ (k0 ∈ listKeys rest ∨ hasKeyA t.array k0))

/-- `HashyStepTable._hashy_probe` at table level. -/
def hashy_probe (t : Table V) (key : Key) (ins : Bool) : Except Err Nat :=
  probeArr t.array key ins

/-- Error kind of a mutating call, discarding the carried state. -/
def errObs : Except (Err × Table V) (Table V) → Option Err
  | .error (e, _) => some e
  | .ok _ => none

/-- Error kind together with the `count` and `size_index` of the state
carried by the exception. -/
def errStateObs : Except (Err × Table V) (Table V) → Option (Err × Int × Nat)
  | .error (e, t) => some (e, t.count, t.size_index)
  | .ok _ => none

/-- Fresh table on the one-entry schedule `[5]`. -/
def tEx0 : Table Nat := initTable [5]

/-- `tEx0` after `set "a" 0` (`ord a = 97`, `hash = 97 % 5 = 2`). -/
def tEx1 : Table Nat :=
  { sizes := [5], size_index := 0,
    array := [.empty, .empty, .occ [97] 0, .empty, .empty], count := 1 }

/-- Schedule `[5]` with `"a" ↦ 0`, `"b" ↦ 1`, `"c" ↦ 2` stored. -/
def tThree : Table Nat :=
  { sizes := [5], size_index := 0,
    array := [.empty, .empty, .occ [97] 0, .occ [98] 1, .occ [99] 2],
    count := 3 }

/-- Same occupancy as `tThree` but on the schedule `[5, 13]`. -/
def tThree13 : Table Nat :=
  { sizes := [5, 13], size_index := 0,
    array := [.empty, .empty, .occ [97] 0, .occ [98] 1, .occ [99] 2],
    count := 3 }

/-- `tThree13` after `set "d" 3` forced a rehash to capacity 13. -/
def tBig13 : Table Nat :=
  { sizes := [5, 13], size_index := 1,
    array := [.empty, .empty, .empty, .empty, .empty, .empty,
      .occ [97] 0, .occ [98] 1, .occ [99] 2, .occ [100] 3,
      .empty, .empty, .empty],
    count := 4 }

/-- A full one-slot table (schedule `[1]`) holding an unrelated key, so
an insert probe for the empty-string key exhausts its budget. -/
def tOneSlot : Table Nat :=
  { sizes := [1], size_index := 0, array := [.occ [5] 7], count := 1 }

/-- Fresh table on the schedule `[1]`: capacity 1. -/
def tOne : Table Nat := initTable [1]

/-! ### Hash function bounds -/

theorem hash_aux_lt {size : Nat} (hs : 1 ≤ size) :
    ∀ (key : List Nat) (value a h : Nat), value < size →
      hash_aux size key value a = some h → h < size := by
  intro key
  induction key with
  | nil =>
    intro value a h hv he
    simp only [hash_aux, Option.some.injEq] at he
    omega
  | cons c cs ih =>
    intro value a h hv he
    simp only [hash_aux] at he
    rw [if_neg (by omega)] at he
    by_cases h1 : size - 1 = 0
    · rw [if_pos h1] at he
      exact absurd he (by simp)
    · rw [if_neg h1] at he
      exact ih _ _ _ (Nat.mod_lt _ (by omega)) he

theorem hash_lt {size : Nat} {key : Key} {h : Nat} (hs : 1 ≤ size)
    (he : hash size key = some h) : h < size :=
  hash_aux_lt hs key 0 31415 h (by omega) he

theorem hash_aux_total {size : Nat} (hs : 2 ≤ size) :
    ∀ (key : List Nat) (value a : Nat), value < size →
      ∃ h, hash_aux size key value a = some h ∧ h < size := by
  intro key
  induction key with
  | nil =>
    intro value a hv
    exact ⟨value, rfl, hv⟩
  | cons c cs ih =>
    intro value a hv
    have h0 : ¬ size = 0 := by omega
    have h1 : ¬ size - 1 = 0 := by omega
    simp only [hash_aux, if_neg h0, if_neg h1]
    exact ih _ _ (Nat.mod_lt _ (by omega))

theorem hash_total {size : Nat} (key : Key) (hs : 2 ≤ size) :
    ∃ h, hash size key = some h ∧ h < size :=
  hash_aux_total hs key 0 31415 (by omega)

theorem hash_aux_one_none :
    ∀ (c : Nat) (cs : List Nat) (value a : Nat),
      hash_aux 1 (c :: cs) value a = none := by
  intro c cs value a
  simp [hash_aux]

theorem hash_one_none {key : Key} (hk : key ≠ []) : hash 1 key = none := by
  cases key with
  | nil => exact absurd rfl hk
  | cons c cs => exact hash_aux_one_none c cs 0 31415

theorem hash2_aux_pos {size : Nat} :
    ∀ (key : List Nat) (value st : Nat),
      hash2_aux size key value = some st → 1 ≤ st := by
  intro key
  induction key with
  | nil =>
    intro value st he
    simp only [hash2_aux, Option.some.injEq] at he
    omega
  | cons c cs ih =>
    intro value st he
    simp only [hash2_aux] at he
    by_cases h0 : size = 0
    · rw [if_pos h0] at he
      exact absurd he (by simp)
    · rw [if_neg h0] at he
      exact ih _ _ he

theorem hash2_pos {size : Nat} {key : Key} {st : Nat}
    (he : hash2 size key = some st) : 1 ≤ st :=
  hash2_aux_pos key 0 st he

theorem hash2_aux_lt {size : Nat} (hs : 2 ≤ size) :
    ∀ (key : List Nat) (value st : Nat), value < size →
      hash2_aux size key value = some st → st < size := by
  intro key
  induction key with
  | nil =>
    intro value st hv he
    simp only [hash2_aux, Option.some.injEq] at he
    omega
  | cons c cs ih =>
    intro value st hv he
    simp only [hash2_aux, if_neg (by omega : ¬ size = 0)] at he
    exact ih _ _ (Nat.mod_lt _ (by omega)) he

theorem hash2_lt {size : Nat} {key : Key} {st : Nat} (hs : 2 ≤ size)
    (he : hash2 size key = some st) : st < size :=
  hash2_aux_lt hs key 0 st (by omega) he

/-! ### Probe position sequence -/

theorem stepSeq_lt {size st pos : Nat} (hs : 1 ≤ size) (hp : pos < size) :
    ∀ j, stepSeq size st pos j < size := by
  intro j
  induction j with
  | zero => exact hp
  | succ j _ => exact Nat.mod_lt _ (by omega)

theorem stepSeq_shift (size st pos : Nat) :
    ∀ j, stepSeq size st pos (j + 1) = stepSeq size st ((pos + st) % size) j := by
  intro j
  induction j with
  | zero => rfl
  | succ j ih =>
    show (stepSeq size st pos (j + 1) + st) % size = _
    rw [ih]
    rfl

/-! ### Slot array access -/

theorem slotA_set_self {arr : List (Slot V)} {p : Nat} (hp : p < arr.length)
    (s : Slot V) : slotA (arr.set p s) p = s := by
  unfold slotA
  rw [List.getD_eq_getElem _ _ (by simpa using hp)]
  simp [List.getElem_set_self]

theorem slotA_set_ne {arr : List (Slot V)} {p q : Nat} (hpq : p ≠ q)
    (s : Slot V) : slotA (arr.set p s) q = slotA arr q := by
  unfold slotA
  by_cases hq : q < arr.length
  · rw [List.getD_eq_getElem _ _ (by simpa using hq),
      List.getD_eq_getElem _ _ hq]
    exact List.getElem_set_ne hpq _
  · rw [List.getD_eq_default _ _ (by simpa using Nat.le_of_not_lt hq),
      List.getD_eq_default _ _ (Nat.le_of_not_lt hq)]

theorem slotA_replicate (m p : Nat) :
    slotA (List.replicate m (.empty : Slot V)) p = .empty := by
  unfold slotA
  by_cases hp : p < m
  · rw [List.getD_eq_getElem _ _ (by simpa using hp)]
    exact List.getElem_replicate _ _
  · rw [List.getD_eq_default _ _ (by simpa using Nat.le_of_not_lt hp)]

theorem slotA_eq_empty_of_ge {arr : List (Slot V)} {p : Nat}
    (hp : arr.length ≤ p) : slotA arr p = .empty :=
  List.getD_eq_default _ _ hp

theorem slotA_occ_lt {arr : List (Slot V)} {p : Nat} {k : Key} {v : V}
    (h : slotA arr p = .occ k v) : p < arr.length := by
  by_contra hp
  rw [slotA_eq_empty_of_ge (Nat.le_of_not_lt hp)] at h
  exact Slot.noConfusion h

/-! ### fdOr bookkeeping -/

theorem fdOr_none_right (a : Option Nat) : fdOr a none = a := by
  cases a <;> rfl

theorem fdOr_absorb (a : Option Nat) (x y : Option Nat) :
    fdOr (fdOr a x) y = fdOr a (fdOr x y) := by
  cases a <;> cases x <;> rfl

/-! ### Probe loop: soundness -/

theorem probe_find {arr : List (Slot V)} {size st : Nat} {key : Key} {v : V}
    (ins : Bool) :
    ∀ (j n pos : Nat) (fd : Option Nat), j < n →
      (∀ i, i < j → skips key (slotA arr (stepSeq size st pos i))) →
      slotA arr (stepSeq size st pos j) = .occ key v →
      probe_aux arr size st key ins n pos fd = .ok (stepSeq size st pos j) := by
  intro j
  induction j with
  | zero =>
    intro n pos fd hjn _ hocc
    cases n with
    | zero => omega
    | succ m =>
      show probe_aux arr size st key ins (m + 1) pos fd = .ok (stepSeq size st pos 0)
      have hp : slotA arr pos = .occ key v := hocc
      simp [probe_aux, hp, stepSeq]
  | succ j ih =>
    intro n pos fd hjn hskip hocc
    cases n with
    | zero => omega
    | succ m =>
      have h0 : skips key (slotA arr pos) := hskip 0 (Nat.succ_pos j)
      rw [stepSeq_shift] at hocc
      rw [stepSeq_shift]
      rcases h0 with hdel | ⟨k', v', hk, hne⟩
      · simp only [probe_aux, hdel]
        exact ih m ((pos + st) % size) _ (by omega)
          (fun i hi => by
            have := hskip (i + 1) (by omega)
            rwa [stepSeq_shift] at this)
          hocc
      · simp only [probe_aux, hk, if_neg hne]
        exact ih m ((pos + st) % size) _ (by omega)
          (fun i hi => by
            have := hskip (i + 1) (by omega)
            rwa [stepSeq_shift] at this)
          hocc

theorem probe_empty_lookup {arr : List (Slot V)} {size st : Nat} {key : Key} :
    ∀ (j n pos : Nat) (fd : Option Nat), j < n →
      (∀ i, i < j → skips key (slotA arr (stepSeq size st pos i))) →
      slotA arr (stepSeq size st pos j) = .empty →
      probe_aux arr size st key false n pos fd = .error .keyNotFound := by
  intro j
  induction j with
  | zero =>
    intro n pos fd hjn _ hemp
    cases n with
    | zero => omega
    | succ m =>
      have hp : slotA arr pos = .empty := hemp
      simp [probe_aux, hp]
  | succ j ih =>
    intro n pos fd hjn hskip hemp
    cases n with
    | zero => omega
    | succ m =>
      have h0 : skips key (slotA arr pos) := hskip 0 (Nat.succ_pos j)
      rw [stepSeq_shift] at hemp
      rcases h0 with hdel | ⟨k', v', hk, hne⟩
      · simp only [probe_aux, hdel]
        exact ih m ((pos + st) % size) _ (by omega)
          (fun i hi => by
            have := hskip (i + 1) (by omega)
            rwa [stepSeq_shift] at this)
          hemp
      · simp only [probe_aux, hk, if_neg hne]
        exact ih m ((pos + st) % size) _ (by omega)
          (fun i hi => by
            have := hskip (i + 1) (by omega)
            rwa [stepSeq_shift] at this)
          hemp

theorem probe_exhaust_lookup {arr : List (Slot V)} {size st : Nat} {key : Key} :
    ∀ (n pos : Nat) (fd : Option Nat),
      (∀ i, i < n → skips key (slotA arr (stepSeq size st pos i))) →
      probe_aux arr size st key false n pos fd = .error .keyNotFound := by
  intro n
  induction n with
  | zero => intro pos fd _; rfl
  | succ m ih =>
    intro pos fd hskip
    have h0 : skips key (slotA arr pos) := hskip 0 (Nat.succ_pos m)
    rcases h0 with hdel | ⟨k', v', hk, hne⟩
    · simp only [probe_aux, hdel]
      exact ih _ _ (fun i hi => by
        have := hskip (i + 1) (by omega)
        rwa [stepSeq_shift] at this)
    · simp only [probe_aux, hk, if_neg hne]
      exact ih _ _ (fun i hi => by
        have := hskip (i + 1) (by omega)
        rwa [stepSeq_shift] at this)

theorem probe_empty_insert {arr : List (Slot V)} {size st : Nat} {key : Key} :
    ∀ (j n pos : Nat) (fd : Option Nat), j < n →
      (∀ i, i < j → skips key (slotA arr (stepSeq size st pos i))) →
      slotA arr (stepSeq size st pos j) = .empty →
      probe_aux arr size st key true n pos fd =
        .ok ((fdOr fd (firstTombA arr size st pos j)).getD (stepSeq size st pos j)) := by
  intro j
  induction j with
  | zero =>
    intro n pos fd hjn _ hemp
    cases n with
    | zero => omega
    | succ m =>
      have hp : slotA arr pos = .empty := hemp
      simp [probe_aux, hp, firstTombA, fdOr_none_right, stepSeq]
  | succ j ih =>
    intro n pos fd hjn hskip hemp
    cases n with
    | zero => omega
    | succ m =>
      have h0 : skips key (slotA arr pos) := hskip 0 (Nat.succ_pos j)
      rw [stepSeq_shift] at hemp
      rw [stepSeq_shift]
      rcases h0 with hdel | ⟨k', v', hk, hne⟩
      · have hstep : probe_aux arr size st key true (m + 1) pos fd =
            probe_aux arr size st key true m ((pos + st) % size)
              (fdOr fd (some pos)) := by
          simp only [probe_aux, hdel]
        have hft : firstTombA arr size st pos (j + 1) = some pos := by
          simp only [firstTombA, hdel]
          rfl
        rw [hstep, ih m ((pos + st) % size) _ (by omega)
          (fun i hi => by
            have := hskip (i + 1) (by omega)
            rwa [stepSeq_shift] at this)
          hemp, hft]
        rcases fd with _ | d <;> rfl
      · have hstep : probe_aux arr size st key true (m + 1) pos fd =
            probe_aux arr size st key true m ((pos + st) % size) fd := by
          simp only [probe_aux, hk, if_neg hne]
        have hft : firstTombA arr size st pos (j + 1) =
            firstTombA arr size st ((pos + st) % size) j := by
          simp only [firstTombA, hk]
          rfl
        rw [hstep, hft]
        exact ih m ((pos + st) % size) _ (by omega)
          (fun i hi => by
            have := hskip (i + 1) (by omega)
            rwa [stepSeq_shift] at this)
          hemp

theorem probe_exhaust_insert {arr : List (Slot V)} {size st : Nat} {key : Key} :
    ∀ (n pos : Nat) (fd : Option Nat),
      (∀ i, i < n → skips key (slotA arr (stepSeq size st pos i))) →
      probe_aux arr size st key true n pos fd =
        (match fdOr fd (firstTombA arr size st pos n) with
          | some d => .ok d
          | none => .error .full) := by
  intro n
  induction n with
  | zero =>
    intro pos fd _
    rcases fd with _ | d <;> rfl
  | succ m ih =>
    intro pos fd hskip
    have h0 : skips key (slotA arr pos) := hskip 0 (Nat.succ_pos m)
    rcases h0 with hdel | ⟨k', v', hk, hne⟩
    · have hstep : probe_aux arr size st key true (m + 1) pos fd =
          probe_aux arr size st key true m ((pos + st) % size)
            (fdOr fd (some pos)) := by
        simp only [probe_aux, hdel]
      have hft : firstTombA arr size st pos (m + 1) = some pos := by
        simp only [firstTombA, hdel]
        rfl
      rw [hstep, ih _ _ (fun i hi => by
        have := hskip (i + 1) (by omega)
        rwa [stepSeq_shift] at this), hft]
      rcases fd with _ | d <;> rfl
    · have hstep : probe_aux arr size st key true (m + 1) pos fd =
          probe_aux arr size st key true m ((pos + st) % size) fd := by
        simp only [probe_aux, hk, if_neg hne]
      have hft : firstTombA arr size st pos (m + 1) =
          firstTombA arr size st ((pos + st) % size) m := by
        simp only [firstTombA, hk]
        rfl
      rw [hstep, hft]
      exact ih _ _ (fun i hi => by
        have := hskip (i + 1) (by omega)
        rwa [stepSeq_shift] at this)

/-! ### Probe loop: error classification -/

theorem probe_true_err {arr : List (Slot V)} {size st : Nat} {key : Key} :
    ∀ (n pos : Nat) (fd : Option Nat) (e : Err),
      probe_aux arr size st key true n pos fd = .error e → e = .full := by
  intro n
  induction n with
  | zero =>
    intro pos fd e he
    rcases fd with _ | d
    · simp only [probe_aux, eq_self_iff_true, if_true, Except.error.injEq] at he
      exact he.symm
    · exact absurd he (by simp [probe_aux])
  | succ m ih =>
    intro pos fd e he
    cases hs : slotA arr pos with
    | empty =>
      simp only [probe_aux, hs] at he
      exact absurd he (by simp)
    | deleted =>
      simp only [probe_aux, hs] at he
      exact ih _ _ _ he
    | occ k v' =>
      simp only [probe_aux, hs] at he
      by_cases hk : k = key
      · rw [if_pos hk] at he
        exact absurd he (by simp)
      · rw [if_neg hk] at he
        exact ih _ _ _ he

/-! ### Probe loop: completeness -/

theorem probe_lookup_complete {arr : List (Slot V)} {size st : Nat} {key : Key} :
    ∀ (n pos : Nat) (fd : Option Nat) (q : Nat),
      probe_aux arr size st key false n pos fd = .ok q →
      ∃ v j, j < n ∧ stepSeq size st pos j = q ∧ slotA arr q = .occ key v ∧
        ∀ i, i < j → skips key (slotA arr (stepSeq size st pos i)) := by
  intro n
  induction n with
  | zero =>
    intro pos fd q he
    exact absurd he (by simp [probe_aux])
  | succ m ih =>
    intro pos fd q he
    cases hs : slotA arr pos with
    | empty =>
      simp only [probe_aux, hs] at he
      exact absurd he (by simp)
    | deleted =>
      simp only [probe_aux, hs] at he
      obtain ⟨v, j, hj, heq, hocc, hsk⟩ := ih _ _ _ he
      refine ⟨v, j + 1, by omega, ?_, hocc, ?_⟩
      · rwa [stepSeq_shift]
      · intro i hi
        cases i with
        | zero => exact Or.inl hs
        | succ i =>
          rw [stepSeq_shift]
          exact hsk i (by omega)
    | occ k v' =>
      simp only [probe_aux, hs] at he
      by_cases hk : k = key
      · rw [if_pos hk] at he
        simp only [Except.ok.injEq] at he
        subst he
        subst hk
        exact ⟨v', 0, by omega, rfl, hs, fun i hi => absurd hi (by omega)⟩
      · rw [if_neg hk] at he
        obtain ⟨v, j, hj, heq, hocc, hsk⟩ := ih _ _ _ he
        refine ⟨v, j + 1, by omega, ?_, hocc, ?_⟩
        · rwa [stepSeq_shift]
        · intro i hi
          cases i with
          | zero => exact Or.inr ⟨k, v', hs, hk⟩
          | succ i =>
            rw [stepSeq_shift]
            exact hsk i (by omega)

theorem probe_insert_complete {arr : List (Slot V)} {size st : Nat} {key : Key} :
    ∀ (n pos : Nat) (fd : Option Nat) (p : Nat),
      (∀ d, fd = some d → slotA arr d = .deleted) →
      probe_aux arr size st key true n pos fd = .ok p →
      (∃ v j, j < n ∧ stepSeq size st pos j = p ∧ slotA arr p = .occ key v ∧
        ∀ i, i < j → skips key (slotA arr (stepSeq size st pos i)))
      ∨ ((slotA arr p = .empty ∨ slotA arr p = .deleted) ∧
        (fd = some p ∨ (fd = none ∧ ∃ j, j < n ∧ stepSeq size st pos j = p ∧
          ∀ i, i < j → occOther key (slotA arr (stepSeq size st pos i))))) := by
  intro n
  induction n with
  | zero =>
    intro pos fd p hfd he
    rcases fd with _ | d
    · exact absurd he (by simp [probe_aux])
    · simp only [probe_aux, eq_self_iff_true, if_true, Except.ok.injEq] at he
      subst he
      exact Or.inr ⟨Or.inr (hfd _ rfl), Or.inl rfl⟩
  | succ m ih =>
    intro pos fd p hfd he
    cases hs : slotA arr pos with
    | empty =>
      simp only [probe_aux, hs, eq_self_iff_true, if_true,
        Except.ok.injEq] at he
      rcases hfde : fd with _ | d
      · subst hfde
        simp only [Option.getD_none] at he
        subst he
        exact Or.inr ⟨Or.inl hs, Or.inr ⟨rfl, 0, by omega, rfl,
          fun i hi => absurd hi (by omega)⟩⟩
      · subst hfde
        simp only [Option.getD_some] at he
        subst he
        exact Or.inr ⟨Or.inr (hfd _ rfl), Or.inl rfl⟩
    | deleted =>
      simp only [probe_aux, hs] at he
      have hfd' : ∀ d, fdOr fd (some pos) = some d → slotA arr d = .deleted := by
        intro d hd
        rcases fd with _ | d0
        · simp only [fdOr, Option.some.injEq] at hd
          subst hd
          exact hs
        · simp only [fdOr, Option.some.injEq] at hd
          subst hd
          exact hfd d0 rfl
      rcases ih _ _ _ hfd' he with ⟨v, j, hj, heq, hocc, hsk⟩ | ⟨hslot, hcase⟩
      · refine Or.inl ⟨v, j + 1, by omega, ?_, hocc, ?_⟩
        · rwa [stepSeq_shift]
        · intro i hi
          cases i with
          | zero => exact Or.inl hs
          | succ i =>
            rw [stepSeq_shift]
            exact hsk i (by omega)
      · rcases hcase with hfdp | ⟨hfdn, _⟩
        · rcases hfde : fd with _ | d0
          · subst hfde
            simp only [fdOr, Option.some.injEq] at hfdp
            subst hfdp
            exact Or.inr ⟨hslot, Or.inr ⟨rfl, 0, by omega, rfl,
              fun i hi => absurd hi (by omega)⟩⟩
          · subst hfde
            simp only [fdOr] at hfdp
            exact Or.inr ⟨hslot, Or.inl hfdp⟩
        · exact absurd hfdn (by rcases fd with _ | d0 <;> simp [fdOr])
    | occ k v' =>
      simp only [probe_aux, hs] at he
      by_cases hk : k = key
      · rw [if_pos hk] at he
        simp only [Except.ok.injEq] at he
        subst he
        subst hk
        exact Or.inl ⟨v', 0, by omega, rfl, hs, fun i hi => absurd hi (by omega)⟩
      · rw [if_neg hk] at he
        rcases ih _ _ _ hfd he with ⟨v, j, hj, heq, hocc, hsk⟩ | ⟨hslot, hcase⟩
        · refine Or.inl ⟨v, j + 1, by omega, ?_, hocc, ?_⟩
          · rwa [stepSeq_shift]
          · intro i hi
            cases i with
            | zero => exact Or.inr ⟨k, v', hs, hk⟩
            | succ i =>
              rw [stepSeq_shift]
              exact hsk i (by omega)
        · rcases hcase with hfdp | ⟨hfdn, j, hj, heq, hocc⟩
          · exact Or.inr ⟨hslot, Or.inl hfdp⟩
          · refine Or.inr ⟨hslot, Or.inr ⟨hfdn, j + 1, by omega, ?_, ?_⟩⟩
            · rwa [stepSeq_shift]
            · intro i hi
              cases i with
              | zero => exact ⟨k, v', hs, hk⟩
              | succ i =>
                rw [stepSeq_shift]
                exact hocc i (by omega)

/-! ### Lookup characterization on arrays -/

theorem probeArr_eq {arr : List (Slot V)} {key : Key} {h st : Nat}
    (ins : Bool) (hh : hash arr.length key = some h)
    (hst : hash2 arr.length key = some st) :
    probeArr arr key ins =
      probe_aux arr arr.length st key ins arr.length h none := by
  simp only [probeArr, hh, hst]

theorem probeArr_ok_elim {arr : List (Slot V)} {key : Key} {ins : Bool}
    {p : Nat} (hp : probeArr arr key ins = .ok p) :
    ∃ h st, hash arr.length key = some h ∧ hash2 arr.length key = some st ∧
      probe_aux arr arr.length st key ins arr.length h none = .ok p := by
  cases hh : hash arr.length key with
  | none => simp [probeArr, hh] at hp
  | some h =>
    cases hst : hash2 arr.length key with
    | none => simp [probeArr, hh, hst] at hp
    | some st =>
      rw [probeArr_eq ins hh hst] at hp
      exact ⟨h, st, rfl, rfl, hp⟩

theorem getArr_ok_elim {arr : List (Slot V)} {key : Key} {v : V}
    (he : getArr arr key = .ok v) :
    ∃ h st q j, hash arr.length key = some h ∧ hash2 arr.length key = some st ∧
      probeArr arr key false = .ok q ∧
      j < arr.length ∧ stepSeq arr.length st h j = q ∧
      slotA arr q = .occ key v ∧
      ∀ i, i < j → skips key (slotA arr (stepSeq arr.length st h i)) := by
  cases hp : probeArr arr key false with
  | error e =>
    simp only [getArr, hp] at he
    exact absurd he (by simp)
  | ok p =>
    simp only [getArr, hp] at he
    obtain ⟨h, st, hh, hst, hp'⟩ := probeArr_ok_elim hp
    obtain ⟨v', j, hj, heq, hocc, hsk⟩ := probe_lookup_complete _ _ _ _ hp'
    rw [hocc] at he
    simp only [Except.ok.injEq] at he
    subst he
    exact ⟨h, st, p, j, hh, hst, rfl, hj, heq, hocc, hsk⟩

theorem getArr_intro {arr : List (Slot V)} {key : Key} {v : V} (h st j : Nat)
    (hh : hash arr.length key = some h) (hst : hash2 arr.length key = some st)
    (hj : j < arr.length)
    (hsk : ∀ i, i < j → skips key (slotA arr (stepSeq arr.length st h i)))
    (hocc : slotA arr (stepSeq arr.length st h j) = .occ key v) :
    getArr arr key = .ok v := by
  have hp : probeArr arr key false = .ok (stepSeq arr.length st h j) := by
    rw [probeArr_eq false hh hst]
    exact probe_find false j arr.length h none hj hsk hocc
  simp only [getArr, hp, hocc]

theorem getArr_ok_slot {arr : List (Slot V)} {key : Key} {v : V}
    (he : getArr arr key = .ok v) : ∃ q, slotA arr q = .occ key v := by
  obtain ⟨h, st, q, j, _, _, _, _, _, hocc, _⟩ := getArr_ok_elim he
  exact ⟨q, hocc⟩

theorem probe_true_of_false {arr : List (Slot V)} {key : Key} {q : Nat}
    (hp : probeArr arr key false = .ok q) : probeArr arr key true = .ok q := by
  obtain ⟨h, st, hh, hst, hp'⟩ := probeArr_ok_elim hp
  obtain ⟨v', j, hj, heq, hocc, hsk⟩ := probe_lookup_complete _ _ _ _ hp'
  rw [probeArr_eq true hh hst, ← heq]
  exact probe_find true j arr.length h none hj hsk (heq ▸ hocc)

theorem insert_slot_of_present {arr : List (Slot V)} {key : Key} {p : Nat}
    {v' : V} (hp : probeArr arr key true = .ok p)
    (hg : getArr arr key = .ok v') : slotA arr p = .occ key v' := by
  obtain ⟨h, st, q, j, hh, hst, hpf, hj, heq, hocc, hsk⟩ := getArr_ok_elim hg
  have := probe_true_of_false hpf
  rw [hp] at this
  simp only [Except.ok.injEq] at this
  subst this
  exact hocc

/-! ### Effect of writing one slot on lookups -/

theorem getArr_set_preserve {arr : List (Slot V)} {k0 : Key} {v0 : V}
    {p : Nat} {s : Slot V} (hg : getArr arr k0 = .ok v0)
    (hnp : ∀ w, slotA arr p ≠ .occ k0 w) (hsp : skips k0 s) :
    getArr (arr.set p s) k0 = .ok v0 := by
  obtain ⟨h, st, q, j, hh, hst, hpf, hj, heq, hocc, hsk⟩ := getArr_ok_elim hg
  by_cases hpl : p < arr.length
  · have hlen : (arr.set p s).length = arr.length := List.length_set arr p s
    refine getArr_intro h st j ?_ ?_ ?_ ?_ ?_
    · rw [hlen]; exact hh
    · rw [hlen]; exact hst
    · rw [hlen]; exact hj
    · intro i hi
      rw [hlen]
      by_cases hip : stepSeq arr.length st h i = p
      · rw [hip, slotA_set_self hpl]
        exact hsp
      · rw [slotA_set_ne (fun hc => hip hc.symm)]
        exact hsk i hi
    · rw [hlen, heq]
      have hqp : q ≠ p := by
        intro hc
        exact hnp v0 (hc ▸ hocc)
      rw [slotA_set_ne (fun hc => hqp hc.symm)]
      exact hocc
  · rw [List.set_eq_of_length_le (Nat.le_of_not_lt hpl)]
    exact hg

theorem getArr_after_insert {arr : List (Slot V)} {key : Key} {p : Nat}
    (v : V) (hp : probeArr arr key true = .ok p) :
    getArr (arr.set p (.occ key v)) key = .ok v := by
  obtain ⟨h, st, hh, hst, hp'⟩ := probeArr_ok_elim hp
  have hlen : (arr.set p (.occ key v)).length = arr.length :=
    List.length_set arr p _
  rcases probe_insert_complete _ _ _ _ (fun d hd => by cases hd) hp' with
    ⟨v', j, hj, heq, hocc, hsk⟩ | ⟨hslot, hcase⟩
  · have hpl : p < arr.length := slotA_occ_lt hocc
    refine getArr_intro h st j ?_ ?_ ?_ ?_ ?_
    · rw [hlen]; exact hh
    · rw [hlen]; exact hst
    · rw [hlen]; exact hj
    · intro i hi
      rw [hlen]
      have hip : stepSeq arr.length st h i ≠ p := by
        intro hc
        rcases hsk i hi with hdel | ⟨k', w, hkw, hne⟩
        · rw [hc, hocc] at hdel
          exact Slot.noConfusion hdel
        · rw [hc, hocc] at hkw
          exact hne (Slot.occ.inj hkw).1.symm
      rw [slotA_set_ne (fun hc => hip hc.symm)]
      exact Or.imp_right (fun hw => hw) (hsk i hi)
    · rw [hlen, heq, slotA_set_self hpl]
  · rcases hcase with hfdp | ⟨_, j, hj, heq, hpath⟩
    · exact absurd hfdp (by simp)
    · have hs1 : 1 ≤ arr.length := by omega
      have hhl : h < arr.length := hash_lt hs1 hh
      have hpl : p < arr.length := heq ▸ stepSeq_lt hs1 hhl j
      refine getArr_intro h st j ?_ ?_ ?_ ?_ ?_
      · rw [hlen]; exact hh
      · rw [hlen]; exact hst
      · rw [hlen]; exact hj
      · intro i hi
        rw [hlen]
        have hip : stepSeq arr.length st h i ≠ p := by
          intro hc
          obtain hkw := hpath i hi
          obtain ⟨k', w, hkw, _⟩ := hkw
          rcases hslot with hsl | hsl <;>
            { rw [hc, hsl] at hkw; exact Slot.noConfusion hkw }
        rw [slotA_set_ne (fun hc => hip hc.symm)]
        obtain ⟨k', w, hkw, hne⟩ := hpath i hi
        exact Or.inr ⟨k', w, hkw, hne⟩
      · rw [hlen, heq, slotA_set_self hpl]

/-! ### Insert-probe classification under well-formedness -/

theorem probe_pos_lt {arr : List (Slot V)} {key : Key} {ins : Bool} {p : Nat}
    (hp : probeArr arr key ins = .ok p) : p < arr.length := by
  obtain ⟨h, st, hh, hst, hp'⟩ := probeArr_ok_elim hp
  cases ins with
  | false =>
    obtain ⟨v', j, hj, heq, hocc, _⟩ := probe_lookup_complete _ _ _ _ hp'
    exact slotA_occ_lt hocc
  | true =>
    rcases probe_insert_complete _ _ _ _ (fun d hd => by cases hd) hp' with
      ⟨v', j, hj, heq, hocc, _⟩ | ⟨_, hcase⟩
    · exact slotA_occ_lt hocc
    · rcases hcase with hfdp | ⟨_, j, hj, heq, _⟩
      · exact absurd hfdp (by simp)
      · have hs1 : 1 ≤ arr.length := by omega
        exact heq ▸ stepSeq_lt hs1 (hash_lt hs1 hh) j

theorem insert_slot_classify {arr : List (Slot V)} {key : Key} {p : Nat}
    (hp : probeArr arr key true = .ok p) :
    slotA arr p = .empty ∨ slotA arr p = .deleted ∨
      ∃ w, slotA arr p = .occ key w := by
  obtain ⟨h, st, hh, hst, hp'⟩ := probeArr_ok_elim hp
  rcases probe_insert_complete _ _ _ _ (fun d hd => by cases hd) hp' with
    ⟨v', _, _, _, hocc, _⟩ | ⟨hslot, _⟩
  · exact Or.inr (Or.inr ⟨v', hocc⟩)
  · rcases hslot with hsl | hsl
    · exact Or.inl hsl
    · exact Or.inr (Or.inl hsl)

theorem no_key_of_insert_free {arr : List (Slot V)} {key : Key} {p : Nat}
    (hG : GoodArr arr) (hp : probeArr arr key true = .ok p)
    (hfree : slotA arr p = .empty ∨ slotA arr p = .deleted) :
    ∀ q w, slotA arr q ≠ .occ key w := by
  intro q w hq
  have hg : getArr arr key = .ok w := hG.2 q key w hq
  have := insert_slot_of_present hp hg
  rcases hfree with hsl | hsl <;>
    { rw [hsl] at this; exact Slot.noConfusion this }

/-! ### The write step of `__setitem__` -/

theorem set_insert_get_self {arr : List (Slot V)} {key : Key} {p : Nat}
    (v : V) (hp : probeArr arr key true = .ok p) :
    getArr (arr.set p (.occ key v)) key = .ok v :=
  getArr_after_insert v hp

theorem set_insert_preserve {arr : List (Slot V)} {key k0 : Key} {v0 : V}
    {p : Nat} (v : V) (hp : probeArr arr key true = .ok p) (hne : k0 ≠ key)
    (hg : getArr arr k0 = .ok v0) :
    getArr (arr.set p (.occ key v)) k0 = .ok v0 := by
  apply getArr_set_preserve hg
  · intro w hq
    rcases insert_slot_classify hp with hsl | hsl | ⟨w', hsl⟩ <;>
      rw [hsl] at hq
    · exact Slot.noConfusion hq
    · exact Slot.noConfusion hq
    · exact hne (Slot.occ.inj hq).1.symm
  · exact Or.inr ⟨key, v, rfl, fun hc => hne hc.symm⟩

theorem set_insert_hasKey_self {arr : List (Slot V)} {key : Key} {p : Nat}
    (v : V) (hp : probeArr arr key true = .ok p) :
    hasKeyA (arr.set p (.occ key v)) key :=
  ⟨p, v, slotA_set_self (probe_pos_lt hp) _⟩

theorem set_insert_hasKey_iff {arr : List (Slot V)} {key k0 : Key} {p : Nat}
    (v : V) (hp : probeArr arr key true = .ok p) (hne : k0 ≠ key) :
    hasKeyA (arr.set p (.occ key v)) k0 ↔ hasKeyA arr k0 := by
  have hpl : p < arr.length := probe_pos_lt hp
  constructor
  · rintro ⟨q, w, hq⟩
    by_cases hqp : q = p
    · subst hqp
      rw [slotA_set_self hpl] at hq
      exact absurd (Slot.occ.inj hq).1.symm hne
    · rw [slotA_set_ne (fun hc => hqp hc.symm)] at hq
      exact ⟨q, w, hq⟩
  · rintro ⟨q, w, hq⟩
    have hqp : q ≠ p := by
      intro hc
      subst hc
      rcases insert_slot_classify hp with hsl | hsl | ⟨w', hsl⟩ <;>
        rw [hsl] at hq
      · exact Slot.noConfusion hq
      · exact Slot.noConfusion hq
      · exact hne (Slot.occ.inj hq).1.symm
    exact ⟨q, w, by rw [slotA_set_ne (fun hc => hqp hc.symm)]; exact hq⟩

theorem set_insert_good {arr : List (Slot V)} {key : Key} {p : Nat}
    (v : V) (hG : GoodArr arr) (hp : probeArr arr key true = .ok p) :
    GoodArr (arr.set p (.occ key v)) := by
  have hpl : p < arr.length := probe_pos_lt hp
  constructor
  · intro p1 p2 k2 w1 w2 h1 h2
    by_cases e1 : p1 = p <;> by_cases e2 : p2 = p
    · rw [e1, e2]
    · rw [e1] at h1
      rw [slotA_set_self hpl] at h1
      obtain ⟨hk2, hw⟩ := Slot.occ.inj h1
      rw [slotA_set_ne (fun hc => e2 hc.symm)] at h2
      rw [← hk2] at h2
      rcases insert_slot_classify hp with hsl | hsl | ⟨w', hsl⟩
      · exact absurd h2 (no_key_of_insert_free hG hp (Or.inl hsl) p2 w2)
      · exact absurd h2 (no_key_of_insert_free hG hp (Or.inr hsl) p2 w2)
      · exact absurd (hG.1 p p2 key w' w2 hsl h2) (fun hc => e2 hc.symm)
    · rw [e2] at h2
      rw [e2]
      rw [slotA_set_self hpl] at h2
      obtain ⟨hk2, hw⟩ := Slot.occ.inj h2
      rw [slotA_set_ne (fun hc => e1 hc.symm)] at h1
      rw [← hk2] at h1
      rcases insert_slot_classify hp with hsl | hsl | ⟨w', hsl⟩
      · exact absurd h1 (no_key_of_insert_free hG hp (Or.inl hsl) p1 w1)
      · exact absurd h1 (no_key_of_insert_free hG hp (Or.inr hsl) p1 w1)
      · exact hG.1 p1 p key w1 w' h1 hsl
    · rw [slotA_set_ne (fun hc => e1 hc.symm)] at h1
      rw [slotA_set_ne (fun hc => e2 hc.symm)] at h2
      exact hG.1 p1 p2 k2 w1 w2 h1 h2
  · intro q k2 w hq
    by_cases hqp : q = p
    · rw [hqp] at hq
      rw [slotA_set_self hpl] at hq
      obtain ⟨hk2, hw⟩ := Slot.occ.inj hq
      rw [← hk2, ← hw]
      exact set_insert_get_self v hp
    · rw [slotA_set_ne (fun hc => hqp hc.symm)] at hq
      have hk2 : k2 ≠ key := by
        intro hc
        rw [hc] at hq
        rcases insert_slot_classify hp with hsl | hsl | ⟨w', hsl⟩
        · exact no_key_of_insert_free hG hp (Or.inl hsl) q w hq
        · exact no_key_of_insert_free hG hp (Or.inr hsl) q w hq
        · exact hqp (hG.1 q p key w w' hq hsl)
      exact set_insert_preserve v hp hk2 (hG.2 q k2 w hq)

/-! ### Entries, keys and well-formedness bookkeeping -/

theorem slot_mem_entries {arr : List (Slot V)} {p : Nat} {k : Key} {v : V}
    (h : slotA arr p = .occ k v) : (k, v) ∈ listEntries arr := by
  induction arr generalizing p with
  | nil => exact absurd h (by simp [slotA])
  | cons s rest ih =>
    cases p with
    | zero =>
      have hs : s = .occ k v := h
      subst hs
      exact List.mem_cons_self _ _
    | succ p =>
      have h' : slotA rest p = .occ k v := h
      cases s <;> simp only [listEntries] <;>
        first
          | exact ih h'
          | exact List.mem_cons_of_mem _ (ih h')

theorem entries_mem_slot {arr : List (Slot V)} {k : Key} {v : V}
    (h : (k, v) ∈ listEntries arr) : ∃ p, slotA arr p = .occ k v := by
  induction arr with
  | nil => exact absurd h (by simp [listEntries])
  | cons s rest ih =>
    cases s with
    | empty =>
      obtain ⟨p, hp⟩ := ih h
      exact ⟨p + 1, hp⟩
    | deleted =>
      obtain ⟨p, hp⟩ := ih h
      exact ⟨p + 1, hp⟩
    | occ k' v' =>
      rcases List.mem_cons.1 h with heq | hmem
      · obtain ⟨hk, hv⟩ := Prod.mk.injEq .. ▸ heq
        subst hk
        subst hv
        exact ⟨0, rfl⟩
      · obtain ⟨p, hp⟩ := ih hmem
        exact ⟨p + 1, hp⟩

theorem keys_mem_iff {arr : List (Slot V)} {k : Key} :
    k ∈ listKeys arr ↔ hasKeyA arr k := by
  constructor
  · intro h
    obtain ⟨⟨k', v⟩, hmem, hk⟩ := List.mem_map.1 h
    obtain ⟨p, hp⟩ := entries_mem_slot hmem
    have hk' : k' = k := hk
    subst hk'
    exact ⟨p, v, hp⟩
  · rintro ⟨p, v, hp⟩
    exact List.mem_map.2 ⟨(k, v), slot_mem_entries hp, rfl⟩

theorem distinct_tail {s : Slot V} {rest : List (Slot V)}
    (h : distinctKeys (s :: rest)) : distinctKeys rest := by
  intro p q k v w hp hq
  have := h (p + 1) (q + 1) k v w hp hq
  omega

theorem distinct_nodup {arr : List (Slot V)} (h : distinctKeys arr) :
    (listKeys arr).Nodup := by
  induction arr with
  | nil => exact List.nodup_nil
  | cons s rest ih =>
    cases s with
    | empty => exact ih (distinct_tail h)
    | deleted => exact ih (distinct_tail h)
    | occ k v =>
      refine List.Nodup.cons ?_ (ih (distinct_tail h))
      intro hk
      obtain ⟨p, w, hp⟩ := keys_mem_iff.1 hk
      have h0 : slotA (Slot.occ k v :: rest) 0 = .occ k v := rfl
      have hp1 : slotA (Slot.occ k v :: rest) (p + 1) = .occ k w := hp
      have := h 0 (p + 1) k v w h0 hp1
      omega

theorem good_replicate (m : Nat) :
    GoodArr (List.replicate m (.empty : Slot V)) := by
  constructor
  · intro p q k v w hp _
    rw [slotA_replicate] at hp
    exact Slot.noConfusion hp
  · intro p k v hp
    rw [slotA_replicate] at hp
    exact Slot.noConfusion hp

theorem hasKeyA_replicate {m : Nat} {k : Key} :
    ¬ hasKeyA (List.replicate m (.empty : Slot V)) k := by
  rintro ⟨p, v, hp⟩
  rw [slotA_replicate] at hp
  exact Slot.noConfusion hp

/-! ### Unfolding equations for `run` -/

theorem run_zero (j : Job V) : run 0 j = .error (.noFuel, j.state) := rfl

theorem run_jset_err {fuel : Nat} {t : Table V} {key : Key} {v : V} {e : Err}
    (hp : probeArr t.array key true = .error e) :
    run (fuel + 1) (.jset t key v) = .error (e, t) := by
  simp [run, hp]

theorem run_jset_eq {fuel : Nat} {t : Table V} {key : Key} {v : V} {p : Nat}
    (hp : probeArr t.array key true = .ok p) :
    run (fuel + 1) (.jset t key v) =
      if 3 * (writeT t key v p).count >
          2 * ((writeT t key v p).array.length : Int) then
        run fuel (.jrehash (writeT t key v p))
      else .ok (writeT t key v p) := by
  simp [run, hp]

theorem run_jrehash_full {fuel : Nat} {t : Table V}
    (h : t.sizes.length ≤ t.size_index + 1) :
    run (fuel + 1) (.jrehash t) = .error (.full, bumpT t) := by
  simp [run, h]

theorem run_jrehash_eq {fuel : Nat} {t : Table V}
    (h : ¬ t.sizes.length ≤ t.size_index + 1) :
    run (fuel + 1) (.jrehash t) =
      run fuel (.jreinsert (freshT t) t.array) := by
  simp [run, h]

theorem run_jreinsert_nil {fuel : Nat} {t : Table V} :
    run (fuel + 1) (.jreinsert t []) = .ok t := rfl

theorem run_jreinsert_empty {fuel : Nat} {t : Table V}
    {rest : List (Slot V)} :
    run (fuel + 1) (.jreinsert t (.empty :: rest)) =
      run fuel (.jreinsert t rest) := rfl

theorem run_jreinsert_del {fuel : Nat} {t : Table V} {rest : List (Slot V)} :
    run (fuel + 1) (.jreinsert t (.deleted :: rest)) =
      .error (.typeErr, t) := rfl

theorem run_jreinsert_occ {fuel : Nat} {t : Table V} {k : Key} {v : V}
    {rest : List (Slot V)} :
    run (fuel + 1) (.jreinsert t (.occ k v :: rest)) =
      (match run fuel (.jset t k v) with
        | .error e => .error e
        | .ok t' => run fuel (.jreinsert t' rest)) := rfl

theorem writeT_length (t : Table V) (key : Key) (v : V) (p : Nat) :
    (writeT t key v p).array.length = t.array.length :=
  List.length_set t.array p _

theorem freshT_length (t : Table V) :
    (freshT t).array.length = t.sizes.getD (t.size_index + 1) 0 :=
  List.length_replicate _ _

/-! ### Capacity and schedule-index monotonicity -/

theorem mono_refl (t : Table V) : Mono t t :=
  ⟨rfl, le_refl _, Or.inl ⟨rfl, rfl⟩⟩

theorem mono_trans {s t u : Table V} (h : Mono s t) (g : Mono t u) :
    Mono s u := by
  obtain ⟨h1, h2, h3⟩ := h
  obtain ⟨g1, g2, g3⟩ := g
  refine ⟨g1.trans h1, h2.trans g2, ?_⟩
  rcases h3 with ⟨he, hl⟩ | ⟨hlt, hlen, hcap⟩
  · rcases g3 with ⟨ge, gl⟩ | ⟨glt, glen, gcap⟩
    · exact Or.inl ⟨ge.trans he, gl.trans hl⟩
    · refine Or.inr ⟨by omega, by rw [← h1]; exact glen, ?_⟩
      rw [gcap, h1]
  · rcases g3 with ⟨ge, gl⟩ | ⟨glt, glen, gcap⟩
    · refine Or.inr ⟨by omega, by omega, ?_⟩
      rw [gl, hcap, ge]
    · refine Or.inr ⟨by omega, by rw [← h1]; exact glen, ?_⟩
      rw [gcap, h1]

theorem run_mono :
    ∀ (fuel : Nat) (j : Job V) (t' : Table V),
      run fuel j = .ok t' → Mono j.state t' := by
  intro fuel
  induction fuel with
  | zero =>
    intro j t' h
    exact absurd h (by simp [run])
  | succ fuel ih =>
    intro j t' h
    cases j with
    | jset t key v =>
      cases hp : probeArr t.array key true with
      | error e =>
        rw [run_jset_err hp] at h
        exact absurd h (by simp)
      | ok p =>
        rw [run_jset_eq hp] at h
        have hw : Mono t (writeT t key v p) :=
          ⟨rfl, le_refl _, Or.inl ⟨rfl, writeT_length t key v p⟩⟩
        by_cases hc : 3 * (writeT t key v p).count >
            2 * ((writeT t key v p).array.length : Int)
        · rw [if_pos hc] at h
          exact mono_trans hw (ih _ _ h)
        · rw [if_neg hc] at h
          simp only [Except.ok.injEq] at h
          subst h
          exact hw
    | jrehash t =>
      by_cases hb : t.sizes.length ≤ t.size_index + 1
      · rw [run_jrehash_full hb] at h
        exact absurd h (by simp)
      · rw [run_jrehash_eq hb] at h
        have hf : Mono t (freshT t) := by
          refine ⟨rfl, ?_, Or.inr ⟨?_, ?_, ?_⟩⟩
          · show t.size_index ≤ t.size_index + 1
            omega
          · show t.size_index < t.size_index + 1
            omega
          · show t.size_index + 1 < t.sizes.length
            omega
          · exact freshT_length t
        exact mono_trans hf (ih _ _ h)
    | jreinsert t rest =>
      cases rest with
      | nil =>
        rw [run_jreinsert_nil] at h
        simp only [Except.ok.injEq] at h
        subst h
        exact mono_refl t
      | cons s rest' =>
        cases s with
        | empty =>
          rw [run_jreinsert_empty] at h
          exact ih (.jreinsert t rest') _ h
        | deleted =>
          rw [run_jreinsert_del] at h
          exact absurd h (by simp)
        | occ k v =>
          rw [run_jreinsert_occ] at h
          cases hs : run fuel (.jset t k v) with
          | error e =>
            rw [hs] at h
            exact absurd h (by simp)
          | ok t1 =>
            rw [hs] at h
            simp only at h
            exact mono_trans (ih (.jset t k v) _ hs)
              (ih (.jreinsert t1 rest') _ h)

theorem rehash_ok_mono {fuel : Nat} {t t' : Table V}
    (h : run fuel (.jrehash t) = .ok t') :
    t'.sizes = t.sizes ∧ t.size_index < t'.size_index ∧
      t'.size_index < t.sizes.length ∧
      t'.array.length = t.sizes.getD t'.size_index 0 := by
  cases fuel with
  | zero => exact absurd h (by simp [run])
  | succ fuel =>
    by_cases hb : t.sizes.length ≤ t.size_index + 1
    · rw [run_jrehash_full hb] at h
      exact absurd h (by simp)
    · rw [run_jrehash_eq hb] at h
      have hm := run_mono _ _ _ h
      obtain ⟨h1, h2, h3⟩ := hm
      simp only [Job.state] at h1 h2 h3
      have hfs : (freshT t).sizes = t.sizes := rfl
      have hfi : (freshT t).size_index = t.size_index + 1 := rfl
      rcases h3 with ⟨he, hl⟩ | ⟨hlt, hlen, hcap⟩
      · refine ⟨h1.trans hfs, ?_, ?_, ?_⟩
        · rw [he, hfi]
          omega
        · rw [he, hfi]
          omega
        · rw [hl, he, hfi]
          exact freshT_length t
      · refine ⟨h1.trans hfs, ?_, ?_, ?_⟩
        · rw [hfi] at hlt
          omega
        · rw [hfs] at hlen
          exact hlen
        · rw [hcap, hfs]

/-! ### Functional correctness of `set` / `rehash` / reinsertion -/

theorem run_good :
    ∀ (fuel : Nat),
      (∀ (t : Table V) (key : Key) (v : V) (t' : Table V), GoodArr t.array →
        run fuel (.jset t key v) = .ok t' → SetConc t key v t') ∧
      (∀ (t t' : Table V), GoodArr t.array →
        run fuel (.jrehash t) = .ok t' → RehConc t t') ∧
      (∀ (t : Table V) (rest : List (Slot V)) (t' : Table V),
        GoodArr t.array → (listKeys rest).Nodup →
        (∀ k ∈ listKeys rest, ¬ hasKeyA t.array k) →
        run fuel (.jreinsert t rest) = .ok t' → ReinsConc t rest t') := by
  intro fuel
  induction fuel with
  | zero =>
    refine ⟨?_, ?_, ?_⟩
    · intro t key v t' _ h
      exact absurd h (by simp [run])
    · intro t t' _ h
      exact absurd h (by simp [run])
    · intro t rest t' _ _ _ h
      exact absurd h (by simp [run])
  | succ fuel ih =>
    obtain ⟨ihS, ihR, ihB⟩ := ih
    refine ⟨?_, ?_, ?_⟩
    · -- jset
      intro t key v t' hG h
      cases hp : probeArr t.array key true with
      | error e =>
        rw [run_jset_err hp] at h
        exact absurd h (by simp)
      | ok p =>
        rw [run_jset_eq hp] at h
        have hw_good : GoodArr (writeT t key v p).array :=
          set_insert_good v hG hp
        have hw_get : getArr (writeT t key v p).array key = .ok v :=
          set_insert_get_self v hp
        have hw_pres : ∀ k0 v0, k0 ≠ key → getArr t.array k0 = .ok v0 →
            getArr (writeT t key v p).array k0 = .ok v0 :=
          fun k0 v0 hne hg => set_insert_preserve v hp hne hg
        have hw_iff : ∀ k0, k0 ≠ key →
            (hasKeyA (writeT t key v p).array k0 ↔ hasKeyA t.array k0) :=
          fun k0 hne => set_insert_hasKey_iff v hp hne
        have hw_self : hasKeyA (writeT t key v p).array key :=
          set_insert_hasKey_self v hp
        by_cases hc : 3 * (writeT t key v p).count >
            2 * ((writeT t key v p).array.length : Int)
        · rw [if_pos hc] at h
          obtain ⟨hg', hre, hiff⟩ := ihR _ _ hw_good h
          refine ⟨hg', ?_, ?_, ?_, ?_⟩
          · exact hre p key v (slotA_set_self (probe_pos_lt hp) _)
          · intro k0 v0 hne hg0
            obtain ⟨q, hq⟩ := getArr_ok_slot (hw_pres k0 v0 hne hg0)
            exact hre q k0 v0 hq
          · intro k0 hne
            exact (hiff k0).trans (hw_iff k0 hne)
          · exact (hiff key).2 hw_self
        · rw [if_neg hc] at h
          simp only [Except.ok.injEq] at h
          subst h
          exact ⟨hw_good, hw_get, hw_pres, hw_iff, hw_self⟩
    · -- jrehash
      intro t t' hG h
      by_cases hb : t.sizes.length ≤ t.size_index + 1
      · rw [run_jrehash_full hb] at h
        exact absurd h (by simp)
      · rw [run_jrehash_eq hb] at h
        have hfresh : GoodArr (freshT t).array :=
          good_replicate _
        have hnodup : (listKeys t.array).Nodup := distinct_nodup hG.1
        have hdisj : ∀ k ∈ listKeys t.array, ¬ hasKeyA (freshT t).array k :=
          fun k _ => hasKeyA_replicate
        obtain ⟨hg', hins, hpre, hiff⟩ := ihB _ _ _ hfresh hnodup hdisj h
        refine ⟨hg', ?_, ?_⟩
        · intro p k w hslot
          exact hins k w (slot_mem_entries hslot)
        · intro k0
          rw [hiff k0]
          constructor
          · rintro (hmem | habs)
            · exact keys_mem_iff.1 hmem
            · exact absurd habs hasKeyA_replicate
          · intro hk
            exact Or.inl (keys_mem_iff.2 hk)
    · -- jreinsert
      intro t rest t' hG hnd hdisj h
      cases rest with
      | nil =>
        rw [run_jreinsert_nil] at h
        simp only [Except.ok.injEq] at h
        subst h
        refine ⟨hG, ?_, ?_, ?_⟩
        · intro k w hmem
          exact absurd hmem (by simp [listEntries])
        · intro k0 v0 hg0 _
          exact hg0
        · intro k0
          constructor
          · intro hk
            exact Or.inr hk
          · rintro (hmem | hk)
            · exact absurd hmem (by simp [listKeys, listEntries])
            · exact hk
      | cons s rest' =>
        cases s with
        | empty =>
          rw [run_jreinsert_empty] at h
          exact ihB t rest' t' hG hnd hdisj h
        | deleted =>
          rw [run_jreinsert_del] at h
          exact absurd h (by simp)
        | occ k v =>
          rw [run_jreinsert_occ] at h
          cases hs : run fuel (.jset t k v) with
          | error e =>
            rw [hs] at h
            exact absurd h (by simp)
          | ok t1 =>
            rw [hs] at h
            simp only at h
            have hlk : listKeys (Slot.occ k v :: rest') =
                k :: listKeys rest' := rfl
            rw [hlk] at hnd hdisj
            have hnd' : (listKeys rest').Nodup := (List.nodup_cons.1 hnd).2
            have hknotin : k ∉ listKeys rest' := (List.nodup_cons.1 hnd).1
            obtain ⟨hG1, hget1, hpres1, hiff1, hself1⟩ := ihS t k v t1 hG hs
            have hdisj' : ∀ k0 ∈ listKeys rest', ¬ hasKeyA t1.array k0 := by
              intro k0 hk0 hkey
              have hne : k0 ≠ k := fun hc => hknotin (hc ▸ hk0)
              exact hdisj k0 (List.mem_cons_of_mem _ hk0)
                ((hiff1 k0 hne).1 hkey)
            obtain ⟨hG', hins', hpre', hiff'⟩ :=
              ihB t1 rest' t' hG1 hnd' hdisj' h
            have hle : listEntries (Slot.occ k v :: rest') =
                (k, v) :: listEntries rest' := rfl
            refine ⟨hG', ?_, ?_, ?_⟩
            · intro k2 w hmem
              rw [hle] at hmem
              rcases List.mem_cons.1 hmem with heq | hmem'
              · obtain ⟨hk2, hw⟩ := Prod.mk.inj heq
                subst hk2
                subst hw
                exact hpre' k2 w hget1 hknotin
              · exact hins' k2 w hmem'
            · intro k0 v0 hg0 hnotin
              rw [hlk] at hnotin
              have hne : k0 ≠ k := fun hc => hnotin (hc ▸ List.mem_cons_self _ _)
              have hnotin' : k0 ∉ listKeys rest' :=
                fun hc => hnotin (List.mem_cons_of_mem _ hc)
              exact hpre' k0 v0 (hpres1 k0 v0 hne hg0) hnotin'
            · intro k0
              rw [hlk, hiff' k0]
              constructor
              · rintro (hmem | hk1)
                · exact Or.inl (List.mem_cons_of_mem _ hmem)
                · by_cases hne : k0 = k
                  · exact Or.inl (hne ▸ List.mem_cons_self _ _)
                  · exact Or.inr ((hiff1 k0 hne).1 hk1)
              · rintro (hmem | hk0)
                · rcases List.mem_cons.1 hmem with heq | hmem'
                  · subst heq
                    exact Or.inr hself1
                  · exact Or.inl hmem'
                · by_cases hne : k0 = k
                  · subst hne
                    exact Or.inr hself1
                  · exact Or.inr ((hiff1 k0 hne).2 hk0)

theorem set_ok_conc {fuel : Nat} {t : Table V} {key : Key} {v : V}
    {t' : Table V} (hG : GoodArr t.array)
    (h : setItem fuel t key v = .ok t') : SetConc t key v t' :=
  (run_good fuel).1 t key v t' hG h

theorem rehash_ok_conc {fuel : Nat} {t t' : Table V} (hG : GoodArr t.array)
    (h : rehashF fuel t = .ok t') : RehConc t t' :=
  (run_good fuel).2.1 t t' hG h

/-! ### Deletion -/

theorem delItem_ok_elim {t : Table V} {key : Key} {t' : Table V}
    (h : delItem t key = .ok t') :
    ∃ p v, probeArr t.array key false = .ok p ∧
      slotA t.array p = .occ key v ∧
      t' = { t with array := t.array.set p .deleted,
                    count := t.count - 1 } := by
  cases hp : probeArr t.array key false with
  | error e =>
    simp only [delItem, hp] at h
    exact absurd h (by simp)
  | ok p =>
    simp only [delItem, hp, Except.ok.injEq] at h
    obtain ⟨hz, sz, hh, hst, hp'⟩ := probeArr_ok_elim hp
    obtain ⟨v, j, hj, heq, hocc, hsk⟩ := probe_lookup_complete _ _ _ _ hp'
    exact ⟨p, v, rfl, hocc, h.symm⟩

theorem del_good {t t' : Table V} {key : Key} (hG : GoodArr t.array)
    (h : delItem t key = .ok t') : GoodArr t'.array := by
  obtain ⟨p, v, hp, hocc, ht'⟩ := delItem_ok_elim h
  subst ht'
  constructor
  · intro p1 p2 k2 w1 w2 h1 h2
    have hp1 : p1 ≠ p := by
      intro hc
      rw [hc, slotA_set_self (slotA_occ_lt hocc)] at h1
      exact Slot.noConfusion h1
    have hp2 : p2 ≠ p := by
      intro hc
      rw [hc, slotA_set_self (slotA_occ_lt hocc)] at h2
      exact Slot.noConfusion h2
    rw [slotA_set_ne (fun hc => hp1 hc.symm)] at h1
    rw [slotA_set_ne (fun hc => hp2 hc.symm)] at h2
    exact hG.1 p1 p2 k2 w1 w2 h1 h2
  · intro q k2 w hq
    have hqp : q ≠ p := by
      intro hc
      rw [hc, slotA_set_self (slotA_occ_lt hocc)] at hq
      exact Slot.noConfusion hq
    rw [slotA_set_ne (fun hc => hqp hc.symm)] at hq
    have hne : k2 ≠ key := by
      intro hc
      rw [hc] at hq
      exact hqp (hG.1 q p key w v hq hocc)
    apply getArr_set_preserve (hG.2 q k2 w hq)
    · intro w' hc
      rw [hocc] at hc
      exact hne (Slot.occ.inj hc).1.symm
    · exact Or.inl rfl

theorem del_preserve {t t' : Table V} {key k0 : Key} {v0 : V}
    (h : delItem t key = .ok t') (hne : k0 ≠ key)
    (hg : getArr t.array k0 = .ok v0) : getArr t'.array k0 = .ok v0 := by
  obtain ⟨p, v, hp, hocc, ht'⟩ := delItem_ok_elim h
  subst ht'
  apply getArr_set_preserve hg
  · intro w hc
    rw [hocc] at hc
    exact hne (Slot.occ.inj hc).1.symm
  · exact Or.inl rfl

/-! ### Reachable states are well-formed -/

theorem reachable_good {t : Table V} (h : Reachable t) : GoodArr t.array := by
  induction h with
  | init sizes _ => exact good_replicate _
  | set _ hs ih => exact (set_ok_conc ih hs).1
  | del _ hd ih => exact del_good ih hd
  | reh _ hh ih => exact (rehash_ok_conc ih hh).1

/-! ### A deleted key can always be re-inserted -/

/-- C1: the spec claims `length()` equals the number of live keys at
every observation point, with `set` on an Empty or Tombstone slot
incrementing `count`. The code only increments `count` when the slot
`is None`, so reinserting a deleted key reuses its tombstone without
incrementing: after `set "a" 0; del "a"; set "a" 1` on schedule `[5]`
the table holds one live key while `count` (hence `len`) is `0`. -/
theorem c1_count_drift :
    (((setItem 9 (initTable (V := Nat) [5]) [97] 0).bind
        (fun t1 => delItem t1 [97])).bind
        (fun t2 => setItem 9 t2 [97] 1)).map
      (fun t => (t.count, liveCount t)) = .ok (0, 1) := rfl

/-- C2: on every reachable table, a `set` call that returns normally
makes the written value readable back through `get`. -/
theorem c2_round_trip {V : Type} {fuel : Nat} {t t' : Table V} {k : Key}
    {v : V} (hr : Reachable t) (hs : setItem fuel t k v = .ok t') :
    getItem t' k = .ok v :=
  (set_ok_conc (reachable_good hr) hs).2.1

/-- C2 witness: `set "a" 0` on a fresh `[5]`-schedule table, then
`get "a"` returns `0`. -/
theorem c2_round_trip_witness : getItem tEx1 [97] = .ok 0 :=
  c2_round_trip (Reachable.init [5] (by decide))
    (show setItem 3 tEx0 [97] 0 = .ok tEx1 from rfl)

/-- C4 counterexample: the claim that a `set` or `rehash` raising
table-full leaves the table unchanged is false. On schedule `[5]`, after
storing `"a" ↦ 0`, `"b" ↦ 1`, `"c" ↦ 2` (`count = 3`, `size_index = 0`),
the call `set "d" 3` raises table-full, yet the exception-time state has
`count = 4` (the entry was written) and `size_index = 1`. -/
theorem c4_counterexample :
    (((setItem 9 (initTable (V := Nat) [5]) [97] 0).bind
        (fun t1 => setItem 9 t1 [98] 1)).bind
        (fun t2 => setItem 9 t2 [99] 2)).map
      (fun t3 => (t3.count, t3.size_index)) = .ok (3, 0)
    ∧ errStateObs ((((setItem 9 (initTable (V := Nat) [5]) [97] 0).bind
        (fun t1 => setItem 9 t1 [98] 1)).bind
        (fun t2 => setItem 9 t2 [99] 2)).bind
        (fun t3 => setItem 9 t3 [100] 3)) = some (.full, 4, 1) :=
  ⟨rfl, rfl⟩

/-- C4 amended: when `set` raises table-full from the probe itself, the
table is exactly unchanged; a `rehash` hitting the exhausted schedule
leaves the entries, `count` and capacity unchanged but has already
incremented `size_index` (`bumpT`); and a `set` whose post-write rehash
hits the exhausted schedule keeps the written entry and count update and
the incremented `size_index` (`bumpT (writeT …)`). -/
theorem c4_table_full_mutation {V : Type} :
    (∀ (fuel : Nat) (t : Table V) (key : Key) (v : V),
      probeArr t.array key true = .error .full →
      setItem (fuel + 1) t key v = .error (.full, t))
    ∧ (∀ (fuel : Nat) (t : Table V), t.sizes.length ≤ t.size_index + 1 →
      rehashF (fuel + 1) t = .error (.full, bumpT t))
    ∧ (∀ (fuel : Nat) (t : Table V) (key : Key) (v : V) (p : Nat),
      probeArr t.array key true = .ok p →
      3 * (writeT t key v p).count >
        2 * ((writeT t key v p).array.length : Int) →
      t.sizes.length ≤ t.size_index + 1 →
      setItem (fuel + 2) t key v =
        .error (.full, bumpT (writeT t key v p))) := by
  refine ⟨?_, ?_, ?_⟩
  · intro fuel t key v hp
    exact run_jset_err hp
  · intro fuel t hb
    exact run_jrehash_full hb
  · intro fuel t key v p hp hc hb
    show run (fuel + 2) (.jset t key v) = _
    rw [run_jset_eq hp, if_pos hc]
    exact run_jrehash_full hb

/-- C4 amended witness: the probe-exhaustion case on a full one-slot
table, the exhausted-schedule rehash on `tEx1`, and the set-triggered
case on `tThree`. -/
theorem c4_table_full_mutation_witness :
    setItem 1 tOneSlot [] 0 = .error (.full, tOneSlot)
    ∧ rehashF 1 tEx1 = .error (.full, bumpT tEx1)
    ∧ setItem 2 tThree [100] 3 =
        .error (.full, bumpT (writeT tThree [100] 3 0)) :=
  ⟨(c4_table_full_mutation (V := Nat)).1 0 tOneSlot [] 0 rfl,
   (c4_table_full_mutation (V := Nat)).2.1 0 tEx1 (by decide),
   (c4_table_full_mutation (V := Nat)).2.2 0 tThree [100] 3 0 rfl
     (by decide) (by decide)⟩

/-- C5: the spec claims `_rehash` reinserts every occupied entry while
discarding tombstones. The reinsertion loop tests `item is not None`, so
the `DELETED` sentinel reaches `key, value = item` and raises
`TypeError` instead of being discarded: on schedule `[5, 7]`, after
`set a,b,c; del a; set d`, the `set e` call triggers a rehash that
crashes with `TypeError` when the scan hits the tombstone. -/
theorem c5_rehash_tombstone_crash :
    errObs ((((((setItem 9 (initTable (V := Nat) [5, 7]) [97] 0).bind
        (fun t1 => setItem 9 t1 [98] 1)).bind
        (fun t2 => setItem 9 t2 [99] 2)).bind
        (fun t3 => delItem t3 [97])).bind
        (fun t4 => setItem 9 t4 [100] 3)).bind
        (fun t5 => setItem 9 t5 [101] 4)) = some .typeErr := rfl

/-- C6: if `count` exceeds `capacity * 2/3` immediately after the write
of a returning `set`, the call rehashed: `size_index` advanced within
the schedule and the capacity is the scheduled size at the new index;
otherwise capacity and `size_index` are unchanged. -/
theorem c6_load_factor {V : Type} {fuel : Nat} {t t' : Table V}
    {key : Key} {v : V} (h : setItem fuel t key v = .ok t') :
    ∃ p, probeArr t.array key true = .ok p ∧
      ((3 * (writeT t key v p).count > 2 * (t.array.length : Int) →
        t.size_index < t'.size_index ∧ t'.size_index < t.sizes.length ∧
        t'.array.length = t.sizes.getD t'.size_index 0) ∧
       (¬ 3 * (writeT t key v p).count > 2 * (t.array.length : Int) →
        t'.array.length = t.array.length ∧
        t'.size_index = t.size_index)) := by
  cases fuel with
  | zero => exact absurd h (by simp [setItem, run])
  | succ fuel =>
    cases hp : probeArr t.array key true with
    | error e =>
      rw [show setItem (fuel + 1) t key v = run (fuel + 1) (.jset t key v)
        from rfl, run_jset_err hp] at h
      exact absurd h (by simp)
    | ok p =>
      rw [show setItem (fuel + 1) t key v = run (fuel + 1) (.jset t key v)
        from rfl, run_jset_eq hp] at h
      rw [writeT_length] at h
      refine ⟨p, rfl, ?_, ?_⟩
      · intro hc
        rw [if_pos hc] at h
        obtain ⟨hsz, hlt, hlen, hcap⟩ := rehash_ok_mono h
        exact ⟨hlt, hlen, hcap⟩
      · intro hc
        rw [if_neg hc] at h
        simp only [Except.ok.injEq] at h
        subst h
        exact ⟨writeT_length t key v p, rfl⟩

/-- C6 witness: inserting `"d" ↦ 3` into `tThree13` (`count` becomes 4,
`4 > 5 * 2/3`) rehashes to the next schedule entry 13. -/
theorem c6_load_factor_witness :
    ∃ p, probeArr tThree13.array [100] true = .ok p ∧
      ((3 * (writeT tThree13 [100] 3 p).count >
          2 * (tThree13.array.length : Int) →
        tThree13.size_index < tBig13.size_index ∧
        tBig13.size_index < tThree13.sizes.length ∧
        tBig13.array.length = tThree13.sizes.getD tBig13.size_index 0) ∧
       (¬ 3 * (writeT tThree13 [100] 3 p).count >
          2 * (tThree13.array.length : Int) →
        tBig13.array.length = tThree13.array.length ∧
        tBig13.size_index = tThree13.size_index)) :=
  c6_load_factor (show setItem 9 tThree13 [100] 3 = .ok tBig13 from rfl)

/-- C7: the spec claims `keys()` / `values()` collect the Occupied
entries, also on tables containing tombstones. The scan tests
`is not None` and then subscripts the slot, so the `DELETED` sentinel is
subscripted and raises `TypeError`: after `set "a" 0; del "a"` both
`keys()` and `values()` crash instead of returning the occupied
entries. -/
theorem c7_keys_values_tombstone_crash :
    ((setItem 9 (initTable (V := Nat) [5]) [97] 0).bind
        (fun t1 => delItem t1 [97])).map
      (fun t2 => (keysF t2, valuesF t2)) =
      .ok (.error .typeErr, .error .typeErr) := rfl

/-- C8: the probe starts at `hash(key)`, advances by `step(key)` modulo
the capacity, and examines at most `capacity` slots. Along the visited
sequence: a matching occupied slot resolves both probe modes at that
index; an Empty slot fails a lookup with key-not-found while an insert
resolves to the first tombstone seen so far if any, else to the Empty
index; an exhausted budget fails a lookup with key-not-found, and an
insert resolves to the recorded first tombstone if any, else fails
table-full. -/
theorem c8_probe_behavior {V : Type} (t : Table V) (key : Key)
    (h st : Nat) (hh : hash (table_size t) key = some h)
    (hst : hash2 (table_size t) key = some st) :
    (∀ j v, j < table_size t →
      (∀ i, i < j →
        skips key (slotA t.array (stepSeq (table_size t) st h i))) →
      slotA t.array (stepSeq (table_size t) st h j) = .occ key v →
      hashy_probe t key false = .ok (stepSeq (table_size t) st h j) ∧
      hashy_probe t key true = .ok (stepSeq (table_size t) st h j))
    ∧ (∀ j, j < table_size t →
      (∀ i, i < j →
        skips key (slotA t.array (stepSeq (table_size t) st h i))) →
      slotA t.array (stepSeq (table_size t) st h j) = .empty →
      hashy_probe t key false = .error .keyNotFound ∧
      hashy_probe t key true =
        .ok ((firstTombA t.array (table_size t) st h j).getD
          (stepSeq (table_size t) st h j)))
    ∧ ((∀ i, i < table_size t →
        skips key (slotA t.array (stepSeq (table_size t) st h i))) →
      hashy_probe t key false = .error .keyNotFound ∧
      hashy_probe t key true =
        (match firstTombA t.array (table_size t) st h (table_size t) with
          | some d => .ok d
          | none => .error .full)) := by
  have hh' : hash t.array.length key = some h := hh
  have hst' : hash2 t.array.length key = some st := hst
  refine ⟨?_, ?_, ?_⟩
  · intro j v hj hsk hocc
    constructor
    · show probeArr t.array key false = _
      rw [probeArr_eq false hh' hst']
      exact probe_find false j _ h none hj hsk hocc
    · show probeArr t.array key true = _
      rw [probeArr_eq true hh' hst']
      exact probe_find true j _ h none hj hsk hocc
  · intro j hj hsk hemp
    constructor
    · show probeArr t.array key false = _
      rw [probeArr_eq false hh' hst']
      exact probe_empty_lookup j _ h none hj hsk hemp
    · show probeArr t.array key true = _
      rw [probeArr_eq true hh' hst']
      exact probe_empty_insert j _ h none hj hsk hemp
  · intro hsk
    constructor
    · show probeArr t.array key false = _
      rw [probeArr_eq false hh' hst']
      exact probe_exhaust_lookup _ h none hsk
    · show probeArr t.array key true = _
      rw [probeArr_eq true hh' hst']
      exact probe_exhaust_insert _ h none hsk

/-- C8 witness: on the table holding `"a" ↦ 0` at slot 2, the probe for
`"a"` (`hash = 2`, `step = 2`) resolves immediately at index 2 in both
modes. -/
theorem c8_probe_behavior_witness :
    hashy_probe tEx1 [97] false = .ok 2 ∧
    hashy_probe tEx1 [97] true = .ok 2 :=
  (c8_probe_behavior tEx1 [97] 2 2 rfl rfl).1 0 0 (by decide)
    (fun i hi => absurd hi (by omega)) rfl

/-- C9: whenever the step hash is defined it returns at least 1, and in
a table of capacity at least 2 adding the step moves every position to a
different position modulo the capacity. -/
theorem c9_step_positive (size : Nat) (key : Key) (st : Nat)
    (he : hash2 size key = some st) :
    1 ≤ st ∧ (2 ≤ size → ∀ pos, pos < size → (pos + st) % size ≠ pos) := by
  refine ⟨hash2_pos he, ?_⟩
  intro hs pos hpos hc
  have h1 : 1 ≤ st := hash2_pos he
  have h2 : st < size := hash2_lt hs he
  by_cases hlt : pos + st < size
  · rw [Nat.mod_eq_of_lt hlt] at hc
    omega
  · have h3 : pos + st - size < size := by omega
    have h4 : (pos + st) % size = pos + st - size := by
      rw [Nat.mod_eq_sub_mod (by omega), Nat.mod_eq_of_lt h3]
    rw [h4] at hc
    omega

/-- C9 witness: `hash2 5 "a" = 2`, and stepping by 2 modulo 5 moves
every position. -/
theorem c9_step_positive_witness :
    1 ≤ 2 ∧ (2 ≤ 5 → ∀ pos, pos < 5 → (pos + 2) % 5 ≠ pos) :=
  c9_step_positive 5 [97] 2 rfl

/-- C10: for capacity at least 2 the primary hash is total and lands in
`[0, capacity)`; with capacity exactly 1 (a schedule whose current entry
is 1) every keyed operation on a nonempty key dies with the
division-by-zero error from `a * 31 % (table_size - 1)`, not with
key-not-found or table-full. -/
theorem c10_hash_domain {V : Type} :
    (∀ (size : Nat) (key : Key), 2 ≤ size →
      ∃ h, hash size key = some h ∧ h < size)
    ∧ (∀ (t : Table V) (key : Key), table_size t = 1 → key ≠ [] →
      getItem t key = .error .zeroDiv ∧
      containsF t key = .error .zeroDiv ∧
      delItem t key = .error (.zeroDiv, t) ∧
      ∀ (fuel : Nat) (v : V),
        setItem (fuel + 1) t key v = .error (.zeroDiv, t)) := by
  constructor
  · intro size key hs
    exact hash_total key hs
  · intro t key hts hk
    have hh : hash t.array.length key = none := by
      rw [show t.array.length = 1 from hts]
      exact hash_one_none hk
    have hp : ∀ ins, probeArr t.array key ins = .error .zeroDiv := by
      intro ins
      simp [probeArr, hh]
    refine ⟨?_, ?_, ?_, ?_⟩
    · show getArr t.array key = _
      simp [getArr, hp false]
    · simp only [containsF, getItem]
      rw [show getArr t.array key = .error .zeroDiv by simp [getArr, hp false]]
    · simp [delItem, hp false]
    · intro fuel v
      exact run_jset_err (hp true)

/-- C10 witness: `hash` is total on capacity 5, and on the capacity-1
table `tOne` the keyed operations for `"a"` all report the
division-by-zero error. -/
theorem c10_hash_domain_witness :
    (∃ h, hash 5 [97] = some h ∧ h < 5)
    ∧ (getItem tOne [97] = .error .zeroDiv ∧
      containsF tOne [97] = .error .zeroDiv ∧
      delItem tOne [97] = .error (.zeroDiv, tOne) ∧
      ∀ (fuel : Nat) (v : Nat),
        setItem (fuel + 1) tOne [97] v = .error (.zeroDiv, tOne)) :=
  ⟨(c10_hash_domain (V := Nat)).1 5 [97] (by omega),
   (c10_hash_domain (V := Nat)).2 tOne [97] rfl (by simp)⟩

end HashyStep
